import Mathlib

/-!
Verification of the DeCub GCL core (decub-gcl/rust/src): hashing primitives,
Merkle engine, consensus engine and the proposal-and-finalize workflow.

Modelling conventions:
- SHA-256 appears in the source only as a deterministic function from the
  formatted input string to a hex digest string; every definition is therefore
  parametrised over an abstract digest function `H : String → String`. No
  theorem below depends on any property of SHA-256 beyond determinism.
- `DateTime<Utc>` values enter the hashes only through `to_rfc3339()`; a
  timestamp is modelled by its RFC 3339 rendering. `Utc::now()` is an effect
  and is modelled by passing the current timestamp as an explicit argument.
- The `Arc<RwLock<Vec<Block>>>` ledger is modelled as an explicit
  `List Block` state threaded through the handler.
-/

namespace DeCub

/-- Transaction record, from types.rs. -/
structure Transaction where
  tx_id : String
  tx_type : String
  origin : String
  payload : String
  sig : String
deriving DecidableEq

/-- UTC timestamp, modelled by its RFC 3339 rendering (the only way the
source observes a timestamp is `timestamp.to_rfc3339()`). -/
structure DateTimeUtc where
  rfc3339 : String
deriving DecidableEq

/-- Block header, from types.rs. -/
structure Header where
  height : Nat
  prev_hash : String
  merkle_root : String
  proposer : String
  timestamp : DateTimeUtc
deriving DecidableEq

/-- Block, from types.rs. -/
structure Block where
  header : Header
  txs : List Transaction
deriving DecidableEq

/-- Merkle tree node with optional owned children, from types.rs. -/
inductive MerkleNode where
  | mk (hash : String) (left : Option MerkleNode) (right : Option MerkleNode)

def MerkleNode.hash : MerkleNode → String
  | .mk h _ _ => h

def MerkleNode.left : MerkleNode → Option MerkleNode
  | .mk _ l _ => l

def MerkleNode.right : MerkleNode → Option MerkleNode
  | .mk _ _ r => r

/-- Merkle inclusion proof, from types.rs. -/
structure MerkleProof where
  hashes : List String
  index : Nat
deriving DecidableEq

/-- `hash_transaction` from types.rs: digest of the concatenation of the five
transaction fields in declaration order. -/
def hash_transaction (H : String → String) (tx : Transaction) : String :=
  H (tx.tx_id ++ tx.tx_type ++ tx.origin ++ tx.payload ++ tx.sig)

/-- The digest computed by `hash_block` in types.rs, as a function of the
header alone: it formats `prev_hash`, `merkle_root`, `proposer` and the
RFC 3339 timestamp — and nothing else (in particular not `height`). -/
def hash_header (H : String → String) (hd : Header) : String :=
  H (hd.prev_hash ++ hd.merkle_root ++ hd.proposer ++ hd.timestamp.rfc3339)

/-- `hash_block` from types.rs. It receives a block but reads only header
fields, so it factors through `hash_header`. -/
def hash_block (H : String → String) (b : Block) : String :=
  hash_header H b.header

/-- One iteration of the level-building loop in `build_merkle_tree`
(merkle.rs): `chunks(2)` pairs nodes left to right; a trailing singleton
chunk pairs the node with itself. -/
def combine_level (H : String → String) : List MerkleNode → List MerkleNode
  | [] => []
  | [x] => [.mk (H (x.hash ++ x.hash)) (some x) (some x)]
  | x :: y :: rest =>
      .mk (H (x.hash ++ y.hash)) (some x) (some y) :: combine_level H rest

/-- Each pairing level halves the node count, rounding up. -/
theorem combine_level_length (H : String → String) :
    ∀ ns : List MerkleNode, (combine_level H ns).length = (ns.length + 1) / 2
  | [] => by simp [combine_level]
  | [_] => by simp [combine_level]
  | _ :: _ :: rest => by
      simp [combine_level, combine_level_length H rest]; omega

/-- The `while nodes.len() > 1` loop of `build_merkle_tree` (merkle.rs),
rendered with an explicit iteration budget so that it is structurally
recursive: each pass strictly shrinks a level of two or more nodes
(`combine_level_length`), so any budget of at least `nodes.length`
iterations runs the loop to its fixed point. `build_merkle_tree` passes
exactly that budget, and `build_loop_root` below shows the budget is
never exhausted. -/
def build_loop (H : String → String) : Nat → List MerkleNode → List MerkleNode
  | 0, nodes => nodes
  | fuel + 1, nodes =>
      if 1 < nodes.length then build_loop H fuel (combine_level H nodes)
      else nodes

/-- `build_merkle_tree` from merkle.rs: `None` on an empty batch, otherwise
one leaf per transaction in input order, levels paired until a single node
remains, returning the root node and its hash. The final
`into_iter().next().unwrap()` is the head of the loop result. -/
def build_merkle_tree (H : String → String) (txs : List Transaction) :
    Option (MerkleNode × String) :=
  if txs.isEmpty then none
  else
    let leaves := txs.map fun tx => MerkleNode.mk (hash_transaction H tx) none none
    match build_loop H leaves.length leaves with
    | root :: _ => some (root, root.hash)
    | [] => none

/-- The descent loop of `generate_merkle_proof` (merkle.rs), one equation per
shape of the current node: while the node has a child, record the child on
the side opposite to `idx % 2` when it exists, then move to the `idx % 2`
side child (stopping when it is missing) and halve the index. -/
def gen_loop : MerkleNode → Nat → List String
  | .mk _ none none, _ => []
  | .mk _ (some lc) (some rc), idx =>
      if idx % 2 == 0 then rc.hash :: gen_loop lc (idx / 2)
      else lc.hash :: gen_loop rc (idx / 2)
  | .mk _ (some lc) none, idx =>
      if idx % 2 == 0 then gen_loop lc (idx / 2) else [lc.hash]
  | .mk _ none (some rc), idx =>
      if idx % 2 == 0 then [rc.hash] else gen_loop rc (idx / 2)

/-- `generate_merkle_proof` from merkle.rs: the recorded sibling hashes in
descent (root-to-leaf) order, paired with the unmodified input index. -/
def generate_merkle_proof (root : MerkleNode) (index : Nat) : MerkleProof :=
  ⟨gen_loop root index, index⟩

/-- Modelled from the spec: the recombination walk of `verifyProof` (§4.2),
which is not present under src/ (it lives on the proof-consumer side). It
walks the sibling hashes from the tail (deepest level) toward the head,
combining `H(current ++ sibling)` when the current bit of the index (taken
from the least-significant end, shifted once per consumed level) marks the
current node as a left child, and `H(sibling ++ current)` when it marks it
as a right child. -/
def recombine (H : String → String) : String → List String → Nat → String
  | cur, [], _ => cur
  | cur, s :: rest, idx =>
      recombine H (if idx % 2 == 0 then H (cur ++ s) else H (s ++ cur)) rest (idx / 2)

/-- Modelled from the spec: `verifyProof(leafTransaction, proof, expectedRoot)`
(§4.2), absent from src/. It recomputes the leaf hash, recombines the sibling
hashes from deepest level to root, and compares the result to `expectedRoot`. -/
def verify_proof (H : String → String) (tx : Transaction) (proof : MerkleProof)
    (expectedRoot : String) : Bool :=
  recombine H (hash_transaction H tx) proof.hashes.reverse proof.index == expectedRoot

/-- Validator, from consensus.rs. -/
structure Validator where
  id : String
  pub_key : String
deriving DecidableEq

/-- Consensus engine state, from consensus.rs. -/
structure Consensus where
  validators : List Validator
  threshold : Nat
deriving DecidableEq

/-- `Consensus::new` from consensus.rs: threshold is `(2 * n) / 3` in
integer arithmetic. -/
def Consensus.new (validators : List Validator) : Consensus :=
  ⟨validators, 2 * validators.length / 3⟩

/-- `Consensus::sign_block` from consensus.rs: one digest per validator,
over the validator id concatenated with the block header hash. -/
def Consensus.sign_block (c : Consensus) (H : String → String) (b : Block) :
    List String :=
  c.validators.map fun v => H (v.id ++ hash_block H b)

/-- `Consensus::verify_quorum` from consensus.rs: a bare count comparison. -/
def Consensus.verify_quorum (c : Consensus) (signatures : List String) : Bool :=
  decide (c.threshold ≤ signatures.length)

/-- `Consensus::propose_block` from consensus.rs: Merkle root of the batch
(empty string when there is no tree), header assembled from the arguments
and the current time (passed explicitly here). -/
def Consensus.propose_block (_c : Consensus) (H : String → String) (height : Nat)
    (prev_hash : String) (txs : List Transaction) (proposer : String)
    (now : DateTimeUtc) : Block :=
  let merkle_root :=
    match build_merkle_tree H txs with
    | some (_, root_hash) => root_hash
    | none => ""
  ⟨⟨height, prev_hash, merkle_root, proposer, now⟩, txs⟩

/-- The previous-hash computation at the top of `handle_submit_tx` (api.rs):
`hash_block` of `ledger[height - 2]` — the current tail — when `height > 1`,
the empty string on an empty ledger. -/
def prev_hash_of (H : String → String) (ledger : List Block) : String :=
  match ledger.getLast? with
  | some b => hash_block H b
  | none => ""

/-- `handle_submit_tx` from api.rs as a state transformer: next height is
`len + 1`, previous hash is taken from the tail, the single submitted
transaction is proposed into a block by `"validator1"`, signed, and appended
exactly when the quorum check passes. The boolean is the reported outcome
(`true` = block created, `false` = consensus failed). -/
def handle_submit_tx (H : String → String) (cons : Consensus)
    (ledger : List Block) (tx : Transaction) (now : DateTimeUtc) :
    List Block × Bool :=
  let height := ledger.length + 1
  let prev_hash := prev_hash_of H ledger
  let block := cons.propose_block H height prev_hash [tx] "validator1" now
  let sigs := cons.sign_block H block
  if cons.verify_quorum sigs then (ledger ++ [block], true) else (ledger, false)

/-- Ledger states reachable through the submit workflow: run a sequence of
submissions (each a transaction with its arrival time) from a starting
state. -/
def run_submits (H : String → String) (cons : Consensus) :
    List Block → List (Transaction × DateTimeUtc) → List Block
  | ledger, [] => ledger
  | ledger, (tx, now) :: rest =>
      run_submits H cons (handle_submit_tx H cons ledger tx now).1 rest

/-! Specification-side definitions, written from the words of the spec to be
compared with the source-translated definitions above. -/

/-- Written from the words of §4.2: one pairing pass over bare hashes — for
each consecutive pair the parent hash is `H(left || right)`, and an odd
level pairs the last hash with itself. -/
def level_spec (H : String → String) : List String → List String
  | [] => []
  | [x] => [H (x ++ x)]
  | x :: y :: rest => H (x ++ y) :: level_spec H rest

/-- A pairing pass halves the hash count, rounding up. -/
theorem level_spec_length (H : String → String) :
    ∀ hs : List String, (level_spec H hs).length = (hs.length + 1) / 2
  | [] => by simp [level_spec]
  | [_] => by simp [level_spec]
  | _ :: _ :: rest => by
      simp [level_spec, level_spec_length H rest]; omega

/-- Written from the words of §4.2: the commitment over a list of leaf
hashes — no tree on an empty input, the lone hash itself on a singleton,
otherwise pair up levels until a single hash remains. -/
def merkle_root_spec (H : String → String) : List String → Option String
  | [] => none
  | [x] => some x
  | x :: y :: rest => merkle_root_spec H (level_spec H (x :: y :: rest))
  termination_by hs => hs.length
  decreasing_by simp [level_spec_length]; omega

/-- A pairing pass over nodes computes exactly a pairing pass over their
hashes. -/
theorem combine_level_map (H : String → String) :
    ∀ ns : List MerkleNode,
      (combine_level H ns).map MerkleNode.hash = level_spec H (ns.map MerkleNode.hash)
  | [] => rfl
  | [_] => rfl
  | _ :: _ :: rest => by
      simp only [combine_level, level_spec, List.map_cons, MerkleNode.hash,
        combine_level_map H rest]

/-- With any budget of at least the node count, the level loop reaches a
single node, whose hash is the spec-side commitment of the leaf hashes. -/
theorem build_loop_root (H : String → String) :
    ∀ (fuel : Nat) (ns : List MerkleNode), ns ≠ [] → ns.length ≤ fuel →
      ∃ r : MerkleNode, build_loop H fuel ns = [r] ∧
        merkle_root_spec H (ns.map MerkleNode.hash) = some r.hash := by
  intro fuel
  induction fuel with
  | zero =>
    intro ns hne hlen
    exact absurd (List.eq_nil_of_length_eq_zero (by omega)) hne
  | succ fuel ih =>
    intro ns hne hlen
    by_cases h1 : 1 < ns.length
    · obtain ⟨x, y, rest, hxy⟩ : ∃ x y rest, ns = x :: y :: rest := by
        match ns, h1 with
        | x :: y :: rest, _ => exact ⟨x, y, rest, rfl⟩
      subst hxy
      have hcl := combine_level_length H (x :: y :: rest)
      have hcne : combine_level H (x :: y :: rest) ≠ [] := by
        intro hc
        rw [hc] at hcl
        simp only [List.length_nil, List.length_cons] at hcl
        omega
      have hclen : (combine_level H (x :: y :: rest)).length ≤ fuel := by
        simp only [List.length_cons] at hcl hlen ⊢
        omega
      obtain ⟨r, hr, hs⟩ := ih (combine_level H (x :: y :: rest)) hcne hclen
      refine ⟨r, ?_, ?_⟩
      · rw [build_loop, if_pos h1]
        exact hr
      · rw [List.map_cons, List.map_cons, merkle_root_spec, ← List.map_cons,
          ← List.map_cons, ← combine_level_map]
        exact hs
    · have hone : ns.length = 1 := by
        rcases ns with _ | ⟨a, t⟩
        · exact absurd rfl hne
        · simp only [List.length_cons] at h1 ⊢
          omega
      obtain ⟨r, hr⟩ := List.length_eq_one.mp hone
      subst hr
      exact ⟨r, by rw [build_loop, if_neg h1], by simp [merkle_root_spec]⟩

/-- A node is strictly binary: a leaf, or an internal node with both
children present and strictly binary. Every node `build_merkle_tree`
creates has this shape. -/
def MerkleNode.isBin : MerkleNode → Bool
  | .mk _ none none => true
  | .mk _ (some l) (some r) => l.isBin && r.isBin
  | .mk _ (some _) none => false
  | .mk _ none (some _) => false

/-- Written from the words of §4.2 on `generateProof`: descend from the
root, at each internal node record the hash of the child not descended
into (root-to-leaf order), divide the index by two, and continue one level
down; stop at a leaf. -/
def proof_hashes_spec : MerkleNode → Nat → List String
  | .mk _ (some lc) (some rc), idx =>
      if idx % 2 == 0 then rc.hash :: proof_hashes_spec lc (idx / 2)
      else lc.hash :: proof_hashes_spec rc (idx / 2)
  | _, _ => []

/-- On strictly binary trees, the source descent loop computes exactly the
spec-worded sibling list. -/
theorem gen_loop_eq_spec :
    ∀ (t : MerkleNode) (idx : Nat), t.isBin = true →
      gen_loop t idx = proof_hashes_spec t idx
  | .mk _ none none, _, _ => rfl
  | .mk _ (some lc) (some rc), idx, hb => by
      simp only [MerkleNode.isBin, Bool.and_eq_true] at hb
      simp only [gen_loop, proof_hashes_spec,
        gen_loop_eq_spec lc (idx / 2) hb.1, gen_loop_eq_spec rc (idx / 2) hb.2]
  | .mk _ (some _) none, _, hb => by simp [MerkleNode.isBin] at hb
  | .mk _ none (some _), _, hb => by simp [MerkleNode.isBin] at hb

/-- A pairing pass over strictly binary nodes yields strictly binary
nodes. -/
theorem combine_level_isBin (H : String → String) :
    ∀ ns : List MerkleNode, (∀ n ∈ ns, n.isBin = true) →
      ∀ m ∈ combine_level H ns, m.isBin = true
  | [], _, m, hm => by simp [combine_level] at hm
  | [x], hx, m, hm => by
      simp only [combine_level, List.mem_singleton] at hm
      subst hm
      have h := hx x (by simp)
      simp [MerkleNode.isBin, h]
  | x :: y :: rest, hx, m, hm => by
      simp only [combine_level, List.mem_cons] at hm
      rcases hm with hm | hm
      · subst hm
        have h1 := hx x (by simp)
        have h2 := hx y (by simp)
        simp [MerkleNode.isBin, h1, h2]
      · exact combine_level_isBin H rest
          (fun n hn => hx n (by simp [hn])) m hm

/-- The level loop preserves strict binarity. -/
theorem build_loop_isBin (H : String → String) :
    ∀ (fuel : Nat) (ns : List MerkleNode), (∀ n ∈ ns, n.isBin = true) →
      ∀ m ∈ build_loop H fuel ns, m.isBin = true := by
  intro fuel
  induction fuel with
  | zero => intro ns hns m hm; exact hns m hm
  | succ fuel ih =>
    intro ns hns m hm
    rw [build_loop] at hm
    by_cases h1 : 1 < ns.length
    · rw [if_pos h1] at hm
      exact ih (combine_level H ns) (combine_level_isBin H ns hns) m hm
    · rw [if_neg h1] at hm
      exact hns m hm

/-- The root returned by `build_merkle_tree` is strictly binary. -/
theorem build_root_isBin (H : String → String) (txs : List Transaction)
    (r : MerkleNode) (rh : String)
    (hbuild : build_merkle_tree H txs = some (r, rh)) : r.isBin = true := by
  rw [build_merkle_tree] at hbuild
  by_cases he : txs.isEmpty
  · rw [if_pos he] at hbuild
    cases hbuild
  · rw [if_neg he] at hbuild
    dsimp only at hbuild
    have hleafbin : ∀ n ∈ txs.map fun tx =>
        MerkleNode.mk (hash_transaction H tx) none none, n.isBin = true := by
      intro n hn
      simp only [List.mem_map] at hn
      obtain ⟨tx, _, htx⟩ := hn
      rw [← htx]
      rfl
    cases hbl : build_loop H
        (txs.map fun tx => MerkleNode.mk (hash_transaction H tx) none none).length
        (txs.map fun tx => MerkleNode.mk (hash_transaction H tx) none none) with
    | nil => rw [hbl] at hbuild; cases hbuild
    | cons root tl =>
      rw [hbl] at hbuild
      have : root = r := by
        simp only [Option.some.injEq, Prod.mk.injEq] at hbuild
        exact hbuild.1
      subst this
      exact build_loop_isBin H _ _ hleafbin root (by rw [hbl]; simp)

/-! Ledger invariants over the submit workflow. -/

/-- Invariant I1 of the spec: each block after the first stores the header
hash of its predecessor. -/
def ChainInv (H : String → String) (l : List Block) : Prop :=
  ∀ i : Nat, ∀ hi : i + 1 < l.length,
    (l.get ⟨i + 1, hi⟩).header.prev_hash =
      hash_header H (l.get ⟨i, by omega⟩).header

/-- Invariant I2 of the spec: the block at 0-indexed position `i` carries
height `i + 1`. -/
def HeightInv (l : List Block) : Prop :=
  ∀ i : Nat, ∀ hi : i < l.length, (l.get ⟨i, hi⟩).header.height = i + 1

/-- On a nonempty list, `prev_hash_of` is the header hash of the tail
element. -/
theorem prev_hash_of_getLast (H : String → String) (l : List Block)
    (hne : l ≠ []) (hlen : l.length - 1 < l.length) :
    prev_hash_of H l = hash_header H (l.get ⟨l.length - 1, hlen⟩).header := by
  rw [prev_hash_of, List.getLast?_eq_getLast l hne, List.getLast_eq_get]
  rfl

/-- Appending a block whose stored previous hash is the current tail hash
preserves chain linkage. -/
theorem chainInv_append (H : String → String) (l : List Block) (b : Block)
    (hl : ChainInv H l) (hb : b.header.prev_hash = prev_hash_of H l) :
    ChainInv H (l ++ [b]) := by
  intro i hi
  have hlen : (l ++ [b]).length = l.length + 1 := by simp
  by_cases hlt : i + 1 < l.length
  · have h1 : (l ++ [b]).get ⟨i + 1, hi⟩ = l.get ⟨i + 1, hlt⟩ := by
      rw [List.get_append_left]
    have h2 : ((l ++ [b]).get ⟨i, by omega⟩ : Block) = l.get ⟨i, by omega⟩ := by
      rw [List.get_append_left]
    rw [h1, h2]
    exact hl i hlt
  · have hieq : i + 1 = l.length := by
      rw [hlen] at hi
      omega
    have hne : l ≠ [] := by
      intro hc
      rw [hc] at hieq
      simp at hieq
    have h1 : (l ++ [b]).get ⟨i + 1, hi⟩ = b := by
      have : (l ++ [b]).get ⟨i + 1, hi⟩ = (l ++ [b]).get ⟨l.length, by simp⟩ := by
        congr 1
        exact Fin.ext hieq
      rw [this, List.get_append_right] <;> simp
    have h2 : ((l ++ [b]).get ⟨i, by omega⟩ : Block) = l.get ⟨i, by omega⟩ := by
      rw [List.get_append_left]
    have hidx : l.get ⟨l.length - 1, by omega⟩ = l.get ⟨i, by omega⟩ := by
      congr 1
      exact Fin.ext (by simp only; omega)
    rw [h1, h2, hb, prev_hash_of_getLast H l hne (by omega), hidx]

/-- Appending a block stamped with height `len + 1` preserves sequential
heights. -/
theorem heightInv_append (l : List Block) (b : Block)
    (hl : HeightInv l) (hb : b.header.height = l.length + 1) :
    HeightInv (l ++ [b]) := by
  intro i hi
  by_cases hlt : i < l.length
  · have h1 : (l ++ [b]).get ⟨i, hi⟩ = l.get ⟨i, hlt⟩ := by
      rw [List.get_append_left]
    rw [h1]
    exact hl i hlt
  · have hieq : i = l.length := by
      simp only [List.length_append, List.length_singleton] at hi
      omega
    have h1 : (l ++ [b]).get ⟨i, hi⟩ = b := by
      have : (l ++ [b]).get ⟨i, hi⟩ = (l ++ [b]).get ⟨l.length, by simp⟩ := by
        congr 1
        exact Fin.ext hieq
      rw [this, List.get_append_right] <;> simp
    rw [h1, hb, hieq]

/-- One submission step either leaves the ledger unchanged or appends a
single block stamped with the tail hash and the next height. -/
theorem handle_submit_step (H : String → String) (cons : Consensus)
    (ledger : List Block) (tx : Transaction) (now : DateTimeUtc) :
    (handle_submit_tx H cons ledger tx now).1 = ledger ∨
    ∃ b : Block, (handle_submit_tx H cons ledger tx now).1 = ledger ++ [b] ∧
      b.header.prev_hash = prev_hash_of H ledger ∧
      b.header.height = ledger.length + 1 := by
  rw [handle_submit_tx]
  by_cases hq : cons.verify_quorum (cons.sign_block H
      (cons.propose_block H (ledger.length + 1) (prev_hash_of H ledger)
        [tx] "validator1" now)) = true
  · right
    refine ⟨cons.propose_block H (ledger.length + 1) (prev_hash_of H ledger)
      [tx] "validator1" now, ?_, rfl, rfl⟩
    simp only [hq, if_true]
  · left
    simp only [Bool.not_eq_true] at hq
    simp only [hq, Bool.false_eq_true, if_false]

/-- Chain linkage is preserved by any run of the submit workflow. -/
theorem run_submits_chainInv (H : String → String) (cons : Consensus) :
    ∀ (inputs : List (Transaction × DateTimeUtc)) (l : List Block),
      ChainInv H l → ChainInv H (run_submits H cons l inputs)
  | [], _, hl => hl
  | (tx, now) :: rest, l, hl => by
      rw [run_submits]
      refine run_submits_chainInv H cons rest _ ?_
      rcases handle_submit_step H cons l tx now with h | ⟨b, hb, hp, _⟩
      · rw [h]; exact hl
      · rw [hb]; exact chainInv_append H l b hl hp

/-- Sequential heights are preserved by any run of the submit workflow. -/
theorem run_submits_heightInv (H : String → String) (cons : Consensus) :
    ∀ (inputs : List (Transaction × DateTimeUtc)) (l : List Block),
      HeightInv l → HeightInv (run_submits H cons l inputs)
  | [], _, hl => hl
  | (tx, now) :: rest, l, hl => by
      rw [run_submits]
      refine run_submits_heightInv H cons rest _ ?_
      rcases handle_submit_step H cons l tx now with h | ⟨b, hb, _, hh⟩
      · rw [h]; exact hl
      · rw [hb]; exact heightInv_append l b hl hh

/-! Concrete instances used by counterexamples and witnesses. A digest
function only has to be deterministic for the theorems above, so the
instances use a simple tagging function. -/

/-- A concrete digest function for evaluation: wrap the input in
parentheses. -/
def tagHash (s : String) : String := "(" ++ s ++ ")"

def txA : Transaction := ⟨"a", "", "", "", ""⟩

def txB : Transaction := ⟨"b", "", "", "", ""⟩

def txC : Transaction := ⟨"c", "", "", "", ""⟩

/-- Three validators, as bootstrapped in main.rs. -/
def vs3 : List Validator :=
  [⟨"val1", "pub1"⟩, ⟨"val2", "pub2"⟩, ⟨"val3", "pub3"⟩]

/-- A single-validator consensus engine (threshold 0). -/
def cons1 : Consensus := Consensus.new [⟨"v1", "p1"⟩]

/-- Two submissions with distinct transactions and arrival times. -/
def inputs2 : List (Transaction × DateTimeUtc) := [(txA, ⟨"T1"⟩), (txB, ⟨"T2"⟩)]

/-! The claims. -/

/-- C1: the claimed proof round-trip FAILS on the code. For the
3-transaction batch `[txA, txB, txC]` and leaf index 2, the tree builds
(`isSome`), yet verifying the proof generated for leaf 2 against the root
hash returns `false`: `generate_merkle_proof` consumes the index bits
least-significant-first starting at the root, so for depth 2 and index 2
it descends root→left→right (ending at leaf 1, not leaf 2) and records the
siblings of that wrong path, which cannot recombine to the root. -/
theorem proof_roundtrip_fails :
    (build_merkle_tree tagHash [txA, txB, txC]).isSome = true ∧
    (build_merkle_tree tagHash [txA, txB, txC]).map
      (fun r => verify_proof tagHash txC (generate_merkle_proof r.1 2) r.2) =
      some false := by
  decide

/-- C2: chain linkage (invariant I1). In every ledger reachable purely
through the submit workflow from the empty ledger, each block after the
first stores exactly the header hash of its predecessor. -/
theorem chain_linkage (H : String → String) (cons : Consensus)
    (inputs : List (Transaction × DateTimeUtc)) (i : Nat)
    (hi : i + 1 < (run_submits H cons [] inputs).length) :
    ((run_submits H cons [] inputs).get ⟨i + 1, hi⟩).header.prev_hash =
      hash_header H ((run_submits H cons [] inputs).get ⟨i, by omega⟩).header :=
  run_submits_chainInv H cons inputs []
    (fun _ hj => absurd hj (by simp)) i hi

/-- Witness for the chain linkage theorem: two submissions through a
single-validator engine produce a two-block ledger whose second block
links to the first. -/
theorem chain_linkage_witness :
    ((run_submits tagHash cons1 [] inputs2).get ⟨1, by decide⟩).header.prev_hash =
      hash_header tagHash
        ((run_submits tagHash cons1 [] inputs2).get ⟨0, by decide⟩).header :=
  chain_linkage tagHash cons1 inputs2 0 (by decide)

/-- C3: Merkle tree construction. `build_merkle_tree` returns `none`
exactly on the empty batch; on any other batch its returned commitment is
the spec-side fold `merkle_root_spec` over the leaf hashes taken in input
order (pair left to right, parent `H(left || right)`, odd level duplicates
its last hash, repeat to a single hash), and the returned root node
carries the returned hash. -/
theorem build_tree_spec (H : String → String) (txs : List Transaction) :
    (build_merkle_tree H txs = none ↔ txs = []) ∧
    (build_merkle_tree H txs).map Prod.snd =
      merkle_root_spec H (txs.map (hash_transaction H)) ∧
    ∀ t h, build_merkle_tree H txs = some (t, h) → t.hash = h := by
  by_cases he : txs = []
  · subst he
    refine ⟨by simp [build_merkle_tree], by simp [build_merkle_tree, merkle_root_spec], ?_⟩
    intro t h hc
    simp [build_merkle_tree] at hc
  · have hleaves : (txs.map fun tx =>
        MerkleNode.mk (hash_transaction H tx) none none) ≠ [] := by
      simpa using he
    obtain ⟨r, hr, hs⟩ := build_loop_root H
      (txs.map fun tx => MerkleNode.mk (hash_transaction H tx) none none).length
      (txs.map fun tx => MerkleNode.mk (hash_transaction H tx) none none)
      hleaves (le_refl _)
    have hmap : ((txs.map fun tx =>
        MerkleNode.mk (hash_transaction H tx) none none).map MerkleNode.hash)
        = txs.map (hash_transaction H) := by
      rw [List.map_map]
      rfl
    have hbuild : build_merkle_tree H txs = some (r, r.hash) := by
      rw [build_merkle_tree, if_neg (by simpa using he)]
      dsimp only
      rw [hr]
    refine ⟨⟨fun hc => ?_, fun hc => absurd hc he⟩, ?_, ?_⟩
    · rw [hbuild] at hc
      cases hc
    · rw [hbuild, ← hmap, hs]
      rfl
    · intro t h hc
      rw [hbuild] at hc
      simp only [Option.some.injEq, Prod.mk.injEq] at hc
      rw [← hc.1, ← hc.2]

/-- C4: quorum boundary. The engine built on `n` validators has threshold
`⌊2n/3⌋`; the quorum check compares only the signature count against the
threshold (no distinctness, no validity), so with a positive threshold it
rejects `threshold - 1` signatures and accepts exactly `threshold`. -/
theorem quorum_boundary (vs : List Validator) (s1 s2 : List String)
    (h1 : s1.length + 1 = (Consensus.new vs).threshold)
    (h2 : s2.length = (Consensus.new vs).threshold) :
    (Consensus.new vs).threshold = 2 * vs.length / 3 ∧
    (Consensus.new vs).verify_quorum s1 = false ∧
    (Consensus.new vs).verify_quorum s2 = true ∧
    ∀ sigs : List String,
      (Consensus.new vs).verify_quorum sigs = true ↔
        (Consensus.new vs).threshold ≤ sigs.length := by
  refine ⟨rfl, ?_, ?_, fun sigs => by simp [Consensus.verify_quorum]⟩
  · simp only [Consensus.verify_quorum, decide_eq_false_iff_not, not_le]
    omega
  · simp only [Consensus.verify_quorum, decide_eq_true_eq]
    omega

/-- Witness for the quorum boundary theorem: three validators give
threshold 2; one signature fails quorum and two signatures meet it. -/
theorem quorum_boundary_witness :
    (Consensus.new vs3).threshold = 2 * vs3.length / 3 ∧
    (Consensus.new vs3).verify_quorum ["s1"] = false ∧
    (Consensus.new vs3).verify_quorum ["s1", "s2"] = true ∧
    ∀ sigs : List String,
      (Consensus.new vs3).verify_quorum sigs = true ↔
        (Consensus.new vs3).threshold ≤ sigs.length :=
  quorum_boundary vs3 ["s1"] ["s1", "s2"] (by decide) (by decide)

/-- C5: quorum-failure atomicity. One submission appends the proposed
block exactly when the quorum check passes on the signatures produced for
it, reporting success; otherwise it reports failure and returns the ledger
unchanged. -/
theorem quorum_failure_atomicity (H : String → String) (cons : Consensus)
    (ledger : List Block) (tx : Transaction) (now : DateTimeUtc) :
    (handle_submit_tx H cons ledger tx now).2 =
      cons.verify_quorum (cons.sign_block H
        (cons.propose_block H (ledger.length + 1) (prev_hash_of H ledger)
          [tx] "validator1" now)) ∧
    (handle_submit_tx H cons ledger tx now).1 =
      (if cons.verify_quorum (cons.sign_block H
            (cons.propose_block H (ledger.length + 1) (prev_hash_of H ledger)
              [tx] "validator1" now)) = true
       then ledger ++ [cons.propose_block H (ledger.length + 1)
          (prev_hash_of H ledger) [tx] "validator1" now]
       else ledger) := by
  cases hq : cons.verify_quorum (cons.sign_block H
      (cons.propose_block H (ledger.length + 1) (prev_hash_of H ledger)
        [tx] "validator1" now)) <;>
    simp [handle_submit_tx, hq]

/-- C6: sequential height (invariant I2). In every ledger reachable purely
through the submit workflow from the empty ledger, the block at 0-indexed
position `i` carries height `i + 1`, because each proposed block is
stamped with `len + 1` before the append. -/
theorem sequential_height (H : String → String) (cons : Consensus)
    (inputs : List (Transaction × DateTimeUtc)) (i : Nat)
    (hi : i < (run_submits H cons [] inputs).length) :
    ((run_submits H cons [] inputs).get ⟨i, hi⟩).header.height = i + 1 :=
  run_submits_heightInv H cons inputs []
    (fun _ hj => absurd hj (by simp)) i hi

/-- Witness for the sequential height theorem: the second block of a
two-submission run carries height 2. -/
theorem sequential_height_witness :
    ((run_submits tagHash cons1 [] inputs2).get ⟨1, by decide⟩).header.height = 2 :=
  sequential_height tagHash cons1 inputs2 1 (by decide)

/-- C7: proof generation. On strictly binary trees — and every tree
`build_merkle_tree` returns is strictly binary — `generate_merkle_proof`
records at each internal node the hash of the child it does not descend
into, halves the index by integer division to continue one level down, and
returns the sibling hashes in root-to-leaf order paired with the original
0-based leaf index. -/
theorem proof_generation_spec (t : MerkleNode) (idx : Nat)
    (hb : t.isBin = true) :
    generate_merkle_proof t idx = ⟨proof_hashes_spec t idx, idx⟩ ∧
    ∀ (H : String → String) (txs : List Transaction) (r : MerkleNode) (rh : String),
      build_merkle_tree H txs = some (r, rh) → r.isBin = true := by
  refine ⟨?_, build_root_isBin⟩
  rw [generate_merkle_proof, gen_loop_eq_spec t idx hb]

/-- Witness for the proof generation theorem, at a depth-one tree and
index 1. -/
theorem proof_generation_spec_witness :
    generate_merkle_proof
        (.mk "p" (some (.mk "l" none none)) (some (.mk "r" none none))) 1 =
      ⟨proof_hashes_spec
        (.mk "p" (some (.mk "l" none none)) (some (.mk "r" none none))) 1, 1⟩ ∧
    ∀ (H : String → String) (txs : List Transaction) (r : MerkleNode) (rh : String),
      build_merkle_tree H txs = some (r, rh) → r.isBin = true :=
  proof_generation_spec
    (.mk "p" (some (.mk "l" none none)) (some (.mk "r" none none))) 1 (by decide)

/-- C8: the header hash excludes the height. Two headers that agree on
`prev_hash`, `merkle_root`, `proposer` and `timestamp` but differ in
`height` produce the identical digest, for every digest function. -/
theorem header_hash_excludes_height (H : String → String) (h1 h2 : Header)
    (hp : h1.prev_hash = h2.prev_hash) (hm : h1.merkle_root = h2.merkle_root)
    (hq : h1.proposer = h2.proposer) (ht : h1.timestamp = h2.timestamp)
    (_hh : h1.height ≠ h2.height) :
    hash_header H h1 = hash_header H h2 := by
  simp [hash_header, hp, hm, hq, ht]

/-- Witness for the header hash theorem: heights 1 and 2, all other fields
equal. -/
theorem header_hash_excludes_height_witness :
    hash_header tagHash ⟨1, "p", "m", "q", ⟨"t"⟩⟩ =
      hash_header tagHash ⟨2, "p", "m", "q", ⟨"t"⟩⟩ :=
  header_hash_excludes_height tagHash ⟨1, "p", "m", "q", ⟨"t"⟩⟩
    ⟨2, "p", "m", "q", ⟨"t"⟩⟩ rfl rfl rfl rfl (by decide)

/-- C9: the quorum-failure branch is unreachable. `sign_block` yields one
signature per validator, the threshold `⌊2n/3⌋` never exceeds `n`, so the
quorum check accepts the produced signatures for every block, and every
submission through the workflow appends its block and reports success. -/
theorem quorum_always_reached (H : String → String) (vs : List Validator)
    (b : Block) (ledger : List Block) (tx : Transaction) (now : DateTimeUtc) :
    ((Consensus.new vs).sign_block H b).length = vs.length ∧
    (Consensus.new vs).verify_quorum ((Consensus.new vs).sign_block H b) = true ∧
    (handle_submit_tx H (Consensus.new vs) ledger tx now).2 = true ∧
    (handle_submit_tx H (Consensus.new vs) ledger tx now).1 =
      ledger ++ [(Consensus.new vs).propose_block H (ledger.length + 1)
        (prev_hash_of H ledger) [tx] "validator1" now] := by
  have hq : ∀ b2 : Block,
      (Consensus.new vs).verify_quorum ((Consensus.new vs).sign_block H b2) = true := by
    intro b2
    simp only [Consensus.verify_quorum, Consensus.sign_block, Consensus.new,
      List.length_map, decide_eq_true_eq]
    omega
  refine ⟨by simp [Consensus.sign_block, Consensus.new], hq b, ?_, ?_⟩ <;>
    simp [handle_submit_tx, hq]

/-- C10: zero-threshold edge case. With zero or one validator the computed
threshold is 0, and the quorum check accepts the empty signature list — a
block can reach quorum with no signatures at all. -/
theorem zero_threshold_quorum (v : Validator) :
    (Consensus.new []).threshold = 0 ∧
    (Consensus.new [v]).threshold = 0 ∧
    (Consensus.new []).verify_quorum [] = true ∧
    (Consensus.new [v]).verify_quorum [] = true :=
  ⟨rfl, by simp [Consensus.new], rfl,
    by simp [Consensus.new, Consensus.verify_quorum]⟩

end DeCub
